import Mathlib

/-!
A shallow embedding of `src/rational.mts` (the exact rational-arithmetic core
of the decimal128 repository) together with proofs about the claims of the
specification.

Modelling conventions:
* JSBI big integers become `ℤ` (all operations used — add, subtract, multiply,
  truncating divide, remainder, unary minus, comparisons — are exact on `ℤ`;
  every division/remainder reachable in this code has non-negative operands,
  where the `ediv`/`tdiv`/JS conventions coincide).
* The `gcd` while-loop and the digit-generation while-loop are written as
  structural recursions on an explicit fuel so that they compute by `decide`;
  the fuel is a strict upper bound on the number of loop iterations, proved
  irrelevant for the properties below (the loops exit through their own guard).
* The generator `nextDigitForDivision` yields exactly the characters it
  appends to its local `result` string (a digit `0`-`9` per appended digit
  character and `-1` when it appends the decimal point, for which the consumer
  in `toDecimalPlaces` performs the identical `("" === result ? "0" : result) + "."`
  update).  The embedding therefore returns the generator's `result` string
  directly; the consumer loop in `toDecimalPlaces` rebuilds that very string.
* `countSignificantDigits` lives in `common.mjs`, which is not part of the
  sources; it is modelled from the spec (see its doc comment).
* Thrown JS errors become `Except RatError`.
-/

deriving instance DecidableEq for Except

namespace D128

/-- Error classes thrown by the source (`RangeError` on a zero denominator,
`TypeError` / `RangeError` in `toDecimalPlaces`). -/
inductive RatError where
  | divisionByZero
  | invalidArgument
  | outOfRange
deriving DecidableEq, Repr

/-- Fuel-driven body of the Euclidean `gcd` while-loop of `rational.mts`:
`while (b ≠ 0) { t := b; b := a % b; a := t }`.  In the source both arguments
are JSBI integers, but the only call site (the constructor) passes the
non-negative magnitudes `num`, `den`, so the loop is modelled on `ℕ`. -/
def gcdAux : ℕ → ℕ → ℕ → ℕ
  | 0, a, _ => a
  | fuel + 1, a, b => if b = 0 then a else gcdAux fuel b (a % b)

/-- The `gcd` function of `rational.mts` (on the non-negative call-site
domain).  `b + 1` bounds the iteration count of the loop, because the second
component strictly decreases. -/
def gcd (a b : ℕ) : ℕ :=
  gcdAux (b + 1) a b

/-- The Rational value type: numerator magnitude, denominator magnitude and a
sign flag, exactly the three fields of the `Rational` class. -/
@[ext]
structure Rational where
  numerator : ℤ
  denominator : ℤ
  isNegative : Bool
deriving DecidableEq, Repr

/-- The normalizing constructor `new Rational(p, q)` on its non-throwing
path: sign resolution, `g = gcd(num, den)`, and division of both magnitudes
by `g`.  (The `q = 0` throw is modelled by `Rational.constructE`.) -/
def Rational.construct (p q : ℤ) : Rational :=
  let s : ℤ × ℤ × Bool :=
    if p < 0 then
      if q < 0 then (-p, -q, false)
      else (-p, q, true)
    else if q < 0 then (p, -q, true)
    else (p, q, false)
  let g : ℕ := gcd s.1.toNat s.2.1.toNat
  ⟨s.1 / (g : ℤ), s.2.1 / (g : ℤ), s.2.2⟩

/-- `new Rational(p, q)` including the `RangeError` thrown when `q == 0`. -/
def Rational.constructE (p q : ℤ) : Except RatError Rational :=
  if q = 0 then .error .divisionByZero else .ok (Rational.construct p q)

/-- `negate()`: re-constructs from the same magnitudes when already negative,
otherwise from `numerator * (-1)` and the denominator. -/
def Rational.negate (r : Rational) : Rational :=
  if r.isNegative then Rational.construct r.numerator r.denominator
  else Rational.construct (r.numerator * (-1)) r.denominator

/-- Termination measure for the `_add`/`_subtract` mutual recursion: a
negative-flagged value weighs 1 when its stored fields are non-negative
(its `negate` is then positively flagged) and 2 otherwise; each mutual call
strictly decreases the total weight. -/
def negWeight (r : Rational) : ℕ :=
  if r.isNegative then (if 0 ≤ r.numerator ∧ 0 ≤ r.denominator then 1 else 2) else 0

theorem construct_num_nonneg (p q : ℤ) : 0 ≤ (Rational.construct p q).numerator := by
  unfold Rational.construct
  by_cases hp : p < 0 <;> by_cases hq : q < 0 <;> simp [hp, hq] <;>
    exact Int.ediv_nonneg (by omega) (Int.natCast_nonneg _)

theorem construct_den_nonneg (p q : ℤ) : 0 ≤ (Rational.construct p q).denominator := by
  unfold Rational.construct
  by_cases hp : p < 0 <;> by_cases hq : q < 0 <;> simp [hp, hq] <;>
    exact Int.ediv_nonneg (by omega) (Int.natCast_nonneg _)

theorem construct_isNegative_of_nonneg {p q : ℤ} (hp : 0 ≤ p) (hq : 0 ≤ q) :
    (Rational.construct p q).isNegative = false := by
  unfold Rational.construct
  simp [not_lt.mpr hp, not_lt.mpr hq]

theorem negWeight_negate_lt {r : Rational} (h : r.isNegative = true) :
    negWeight r.negate < negWeight r := by
  unfold Rational.negate
  rw [if_pos h]
  unfold negWeight
  rw [if_pos h]
  by_cases hf : 0 ≤ r.numerator ∧ 0 ≤ r.denominator
  · rw [if_pos hf, construct_isNegative_of_nonneg hf.1 hf.2]
    simp
  · rw [if_neg hf]
    split
    · rw [if_pos ⟨construct_num_nonneg _ _, construct_den_nonneg _ _⟩]
      omega
    · omega

mutual

/-- `Rational._add`: delegates to `_subtract` on a negated operand when either
operand is negative, else the non-negative cross-multiplication formula. -/
def Rational._add (x y : Rational) : Rational :=
  if _hx : x.isNegative then Rational._subtract y x.negate
  else if _hy : y.isNegative then Rational._subtract x y.negate
  else
    Rational.construct
      (x.numerator * y.denominator + y.numerator * x.denominator)
      (x.denominator * y.denominator)
termination_by negWeight x + negWeight y
decreasing_by
  · have := negWeight_negate_lt _hx; omega
  · have := negWeight_negate_lt _hy; omega

/-- `Rational._subtract`: `-( (-x) + y )` when `x` is negative, else the
cross-multiplication formula on the stored fields (note: the sign of `y` is
not examined in the else branch). -/
def Rational._subtract (x y : Rational) : Rational :=
  if _hx : x.isNegative then (Rational._add x.negate y).negate
  else
    Rational.construct
      (x.numerator * y.denominator - y.numerator * x.denominator)
      (x.denominator * y.denominator)
termination_by negWeight x + negWeight y
decreasing_by
  have := negWeight_negate_lt _hx; omega

end

/-- `Rational._multiply`: product of the stored numerators over the product of
the stored denominators (the two sign flags are not consulted). -/
def Rational._multiply (x y : Rational) : Rational :=
  Rational.construct (x.numerator * y.numerator) (x.denominator * y.denominator)

/-- Variadic `Rational.add`: fold of `_add` starting from `new Rational(0, 1)`. -/
def Rational.add (theArgs : List Rational) : Rational :=
  theArgs.foldl Rational._add (Rational.construct 0 1)

/-- Variadic `Rational.subtract`: fold of `_subtract` starting from `x`. -/
def Rational.subtract (x : Rational) (theArgs : List Rational) : Rational :=
  theArgs.foldl Rational._subtract x

/-- Variadic `Rational.multiply`: fold of `_multiply` starting from
`new Rational(1, 1)`. -/
def Rational.multiply (theArgs : List Rational) : Rational :=
  theArgs.foldl Rational._multiply (Rational.construct 1 1)

/-- `cmp`: compare the signed cross products
`a = sign(this)·this.num·x.den` and `b = sign(x)·x.num·this.den`. -/
def Rational.cmp (x y : Rational) : ℤ :=
  let a := (if x.isNegative then (-1 : ℤ) else 1) * x.numerator * y.denominator
  let b := (if y.isNegative then (-1 : ℤ) else 1) * y.numerator * x.denominator
  if a < b then -1 else if b < a then 1 else 0

/-- The exact mathematical value of a `Rational` triple, used to state the
specification's claims. -/
def Rational.value (r : Rational) : ℚ :=
  ((if r.isNegative then -r.numerator else r.numerator : ℤ) : ℚ) / (r.denominator : ℚ)

/-- Modelled from the spec: `countSignificantDigits` of `common.mjs` is not in
the sources.  Per §6, "given a digit string ..., returns the count of digits
excluding leading zeros", and per the glossary a significant digit is "a digit
counted toward a precision budget, excluding leading zeros before the first
nonzero digit".  Non-digit characters (the decimal-point marker, a sign) are
not digits and therefore do not count. -/
def countSignificantDigits (s : List Char) : ℕ :=
  (((s.filter fun c => c.isDigit).dropWhile fun c => c == '0')).length

/-- `result.match(/[.]$/) ? result.replace(".", "") : result`: drop the first
decimal point when the string ends with one. -/
def stripTrailingPoint (result : List Char) : List Char :=
  if result.getLast? = some '.' then result.erase '.' else result

/-- The decimal digit characters of `q`, most significant first, as produced
by `q.toString()` for a non-negative JSBI `q`. -/
def digitChars (q : ℕ) : List Char :=
  Nat.toDigits 10 q

/-- The while-loop of the generator `nextDigitForDivision(x, y, n)`, returning
its local `result` string (see the header comment: the yielded stream is the
sequence of characters appended to `result`, and the consumer loop of
`toDecimalPlaces` reassembles exactly this string).  State: the current
remainder `x`, the `emittedDecimalPoint` flag and `result`; the structural
fuel bounds the iteration count.  Loop guard:
`countSignificantDigits(result with a trailing "." stripped) < n`;
body: `x == 0` sets `done` (exit), `x < y` scales by ten (emitting the point
first if not yet emitted, and a look-ahead `0` digit when the scaled remainder
is still below `y`), otherwise one division step appends the digits of
`x / y` and replaces `x` by `x % y`. -/
def divisionLoop (n y : ℕ) : ℕ → ℕ → Bool → List Char → List Char
  | 0, _, _, result => result
  | fuel + 1, x, emittedDecimalPoint, result =>
    if ¬ countSignificantDigits (stripTrailingPoint result) < n then result
    else if x = 0 then result
    else if x < y then
      if emittedDecimalPoint then
        if 10 * x < y then divisionLoop n y fuel (10 * x) emittedDecimalPoint (result ++ ['0'])
        else divisionLoop n y fuel (10 * x) emittedDecimalPoint result
      else
        if 10 * x < y then
          divisionLoop n y fuel (10 * x) true
            (((if result = [] then ['0'] else result) ++ ['.']) ++ ['0'])
        else divisionLoop n y fuel (10 * x) true ((if result = [] then ['0'] else result) ++ ['.'])
    else
      divisionLoop n y fuel (x % y) emittedDecimalPoint (result ++ digitChars (x / y))

/-- An upper bound on the iteration count of the division loop: at most `n + 1`
division steps, separated by runs of at most `y + 1` scaling steps. -/
def divisionFuel (x y n : ℕ) : ℕ :=
  (n + 2) * (y + 2) + x + 2

/-- `toDecimalPlaces` after its argument checks: the `"0"` short-circuit for a
zero numerator, else the digit string produced by the division generator with
the `"-"` sign prefix.  (`x`, `y` are the stored magnitudes; on every
constructor-produced value they are non-negative, so `toNat` is exact.) -/
def Rational.toDecimalPlacesCore (r : Rational) (n : ℕ) : String :=
  if r.numerator = 0 then "0"
  else
    String.mk
      ((if r.isNegative then ['-'] else []) ++
        divisionLoop n r.denominator.toNat
          (divisionFuel r.numerator.toNat r.denominator.toNat n) r.numerator.toNat false [])

/-- `toDecimalPlaces(n)` with its two argument checks, in source order:
`TypeError` when `n` is not an integer, then `RangeError` when `n < 0`.  The
JS `number` argument is modelled as `ℚ`. -/
def Rational.toDecimalPlaces (r : Rational) (n : ℚ) : Except RatError String :=
  if ¬ n.isInt then .error .invalidArgument
  else if n < 0 then .error .outOfRange
  else .ok (r.toDecimalPlacesCore n.num.toNat)

/-- `toString()`: `[-]<numerator>/<denominator>`. -/
def Rational.toStr (r : Rational) : String :=
  (if r.isNegative then "-" else "") ++ (r.numerator.repr ++ ("/" ++ r.denominator.repr))

/-! ### Branch unfolding lemmas for the mutual recursion -/

theorem _add_of_neg {x : Rational} (y : Rational) (h : x.isNegative = true) :
    x._add y = y._subtract x.negate := by
  rw [Rational._add, dif_pos h]

theorem _add_of_pos_neg {x y : Rational} (hx : x.isNegative = false)
    (hy : y.isNegative = true) : x._add y = x._subtract y.negate := by
  rw [Rational._add, dif_neg (by simp [hx]), dif_pos hy]

theorem _add_of_pos_pos {x y : Rational} (hx : x.isNegative = false)
    (hy : y.isNegative = false) :
    x._add y =
      Rational.construct (x.numerator * y.denominator + y.numerator * x.denominator)
        (x.denominator * y.denominator) := by
  rw [Rational._add, dif_neg (by simp [hx]), dif_neg (by simp [hy])]

theorem _subtract_of_neg {x : Rational} (y : Rational) (h : x.isNegative = true) :
    x._subtract y = (x.negate._add y).negate := by
  rw [Rational._subtract, dif_pos h]

theorem _subtract_of_pos {x : Rational} (y : Rational) (h : x.isNegative = false) :
    x._subtract y =
      Rational.construct (x.numerator * y.denominator - y.numerator * x.denominator)
        (x.denominator * y.denominator) := by
  rw [Rational._subtract, dif_neg (by simp [h])]

/-! ### The fuelled gcd loop computes the mathematical gcd -/

theorem gcdAux_eq (fuel : ℕ) : ∀ a b : ℕ, b < fuel → gcdAux fuel a b = Nat.gcd a b := by
  induction fuel with
  | zero => omega
  | succ f ih =>
    intro a b hb
    rw [gcdAux]
    by_cases h0 : b = 0
    · simp [h0]
    · rw [if_neg h0, ih b (a % b) (by have := Nat.mod_lt a (Nat.pos_of_ne_zero h0); omega)]
      rw [Nat.gcd_comm b (a % b), ← Nat.gcd_rec b a, Nat.gcd_comm b a]

/-- The gcd while-loop terminates (the fuel bound is sufficient) and computes
the Euclidean gcd. -/
theorem gcd_eq (a b : ℕ) : gcd a b = Nat.gcd a b :=
  gcdAux_eq (b + 1) a b (Nat.lt_succ_self b)

/-! ### Characterization of the constructor -/

/-- The normalized fields of `construct p q`: both magnitudes are divided by
`g = gcd |p| |q|`, and the sign flag is the XOR of the two negativity tests
(note: this makes `construct 0 q` negatively flagged for `q < 0`). -/
theorem construct_spec (p q : ℤ) :
    (Rational.construct p q).numerator = ↑(p.natAbs / Nat.gcd p.natAbs q.natAbs) ∧
    (Rational.construct p q).denominator = ↑(q.natAbs / Nat.gcd p.natAbs q.natAbs) ∧
    (Rational.construct p q).isNegative = (decide (p < 0) ^^ decide (q < 0)) := by
  have key : ∀ a b : ℤ, 0 ≤ a → 0 ≤ b →
      a / ↑(gcd a.toNat b.toNat) = (↑(a.natAbs / Nat.gcd a.natAbs b.natAbs) : ℤ) := by
    intro a b ha hb
    rw [gcd_eq, show a.toNat = a.natAbs from by omega, show b.toNat = b.natAbs from by omega,
      show a = (a.natAbs : ℤ) from by omega]
    exact (Int.ofNat_ediv _ _).symm
  have key2 : ∀ a b : ℤ, 0 ≤ a → 0 ≤ b →
      b / ↑(gcd a.toNat b.toNat) = (↑(b.natAbs / Nat.gcd a.natAbs b.natAbs) : ℤ) := by
    intro a b ha hb
    rw [gcd_eq, show a.toNat = a.natAbs from by omega, show b.toNat = b.natAbs from by omega,
      show b = (b.natAbs : ℤ) from by omega]
    exact (Int.ofNat_ediv _ _).symm
  unfold Rational.construct
  by_cases hp : p < 0 <;> by_cases hq0 : q < 0 <;> simp only [hp, hq0, if_true, if_false]
  · refine ⟨?_, ?_, by simp [hp, hq0]⟩
    · rw [key (-p) (-q) (by omega) (by omega)]; simp
    · rw [key2 (-p) (-q) (by omega) (by omega)]; simp
  · refine ⟨?_, ?_, by simp [hp, hq0]⟩
    · rw [key (-p) q (by omega) (by omega)]; simp
    · rw [key2 (-p) q (by omega) (by omega)]; simp
  · refine ⟨?_, ?_, by simp [hp, hq0]⟩
    · rw [key p (-q) (by omega) (by omega)]; simp
    · rw [key2 p (-q) (by omega) (by omega)]; simp
  · refine ⟨?_, ?_, by simp [hp, hq0]⟩
    · rw [key p q (by omega) (by omega)]
    · rw [key2 p q (by omega) (by omega)]

theorem construct_den_pos (p q : ℤ) (hq : q ≠ 0) : 0 < (Rational.construct p q).denominator := by
  rw [(construct_spec p q).2.1]
  have hb : 0 < q.natAbs := by omega
  have hg : 0 < Nat.gcd p.natAbs q.natAbs := Nat.gcd_pos_of_pos_right _ hb
  exact_mod_cast Nat.div_pos (Nat.le_of_dvd hb (Nat.gcd_dvd_right _ _)) hg

theorem construct_gcd_one (p q : ℤ) (hq : q ≠ 0) :
    Int.gcd (Rational.construct p q).numerator (Rational.construct p q).denominator = 1 := by
  rw [(construct_spec p q).1, (construct_spec p q).2.1, Int.gcd_natCast_natCast]
  exact Nat.coprime_div_gcd_div_gcd (Nat.gcd_pos_of_pos_right _ (by omega))

/-- The invariant every arithmetic input enjoys: non-negative numerator
magnitude, positive denominator magnitude. -/
def Good (r : Rational) : Prop :=
  0 ≤ r.numerator ∧ 0 < r.denominator

/-- The §3 invariant: reduced non-negative magnitudes, positive denominator,
and the canonical-zero clause. -/
def Canonical (r : Rational) : Prop :=
  0 ≤ r.numerator ∧ 0 < r.denominator ∧
    Int.gcd r.numerator r.denominator = 1 ∧
    (r.numerator = 0 → r.denominator = 1 ∧ r.isNegative = false)

instance (r : Rational) : Decidable (Good r) := by unfold Good; infer_instance

instance (r : Rational) : Decidable (Canonical r) := by unfold Canonical; infer_instance

theorem construct_good (p q : ℤ) (hq : q ≠ 0) : Good (Rational.construct p q) :=
  ⟨construct_num_nonneg p q, construct_den_pos p q hq⟩

theorem construct_num_zero {p q : ℤ} (hq : q ≠ 0)
    (h : (Rational.construct p q).numerator = 0) : p = 0 := by
  rw [(construct_spec p q).1] at h
  have hg : 0 < Nat.gcd p.natAbs q.natAbs := Nat.gcd_pos_of_pos_right _ (by omega)
  have hz : p.natAbs / Nat.gcd p.natAbs q.natAbs = 0 := by exact_mod_cast h
  by_contra hp
  have hpos : 0 < p.natAbs := by omega
  have hle : Nat.gcd p.natAbs q.natAbs ≤ p.natAbs := Nat.le_of_dvd hpos (Nat.gcd_dvd_left _ _)
  have := Nat.div_pos hle hg
  omega

theorem construct_canonical (p q : ℤ) (hq : q ≠ 0) (h0 : q < 0 → p ≠ 0) :
    Canonical (Rational.construct p q) := by
  refine ⟨construct_num_nonneg p q, construct_den_pos p q hq, construct_gcd_one p q hq, ?_⟩
  intro hnum
  have hp0 : p = 0 := construct_num_zero hq hnum
  subst hp0
  have hqpos : 0 < q := by
    by_contra hle
    push_neg at hle
    exact h0 (by omega) rfl
  constructor
  · rw [(construct_spec 0 q).2.1]
    simp only [Int.natAbs_zero, Nat.gcd_zero_left]
    rw [Nat.div_self (by omega : 0 < q.natAbs)]
    rfl
  · rw [(construct_spec 0 q).2.2]
    have h1 : ¬ ((0 : ℤ) < 0) := by omega
    have h2 : ¬ (q < 0) := by omega
    simp [h1, h2]

theorem natAbs_castQ (p : ℤ) : ((p.natAbs : ℚ)) = (((p.natAbs : ℤ)) : ℚ) :=
  (Int.cast_natCast p.natAbs).symm

theorem construct_value (p q : ℤ) (hq : q ≠ 0) :
    (Rational.construct p q).value = (p : ℚ) / (q : ℚ) := by
  obtain ⟨hn, hd, hs⟩ := construct_spec p q
  have hgpos : 0 < Nat.gcd p.natAbs q.natAbs := Nat.gcd_pos_of_pos_right _ (by omega)
  have hqQ : ((q : ℚ)) ≠ 0 := Int.cast_ne_zero.mpr hq
  have key : (((p.natAbs / Nat.gcd p.natAbs q.natAbs : ℕ) : ℤ) : ℚ)
      / (((q.natAbs / Nat.gcd p.natAbs q.natAbs : ℕ) : ℤ) : ℚ)
      = (p.natAbs : ℚ) / (q.natAbs : ℚ) := by
    rw [Int.cast_natCast, Int.cast_natCast,
      Nat.cast_div (Nat.gcd_dvd_left _ _) (by positivity),
      Nat.cast_div (Nat.gcd_dvd_right _ _) (by positivity)]
    have hg : ((Nat.gcd p.natAbs q.natAbs : ℚ)) ≠ 0 := by positivity
    have hb : ((q.natAbs : ℚ)) ≠ 0 := by
      have h : q.natAbs ≠ 0 := by omega
      exact_mod_cast h
    field_simp
  unfold Rational.value
  rw [hn, hd, hs]
  by_cases hp : p < 0 <;> by_cases hq0 : q < 0
  · have e1 : ((p.natAbs : ℚ)) = -(p : ℚ) := by
      rw [natAbs_castQ, show ((p.natAbs : ℤ)) = -p from by omega, Int.cast_neg]
    have e2 : ((q.natAbs : ℚ)) = -(q : ℚ) := by
      rw [natAbs_castQ, show ((q.natAbs : ℤ)) = -q from by omega, Int.cast_neg]
    rw [decide_eq_true hp, decide_eq_true hq0, show (true ^^ true) = false from rfl,
      if_neg (by simp), key, e1, e2]
    field_simp
  · have e1 : ((p.natAbs : ℚ)) = -(p : ℚ) := by
      rw [natAbs_castQ, show ((p.natAbs : ℤ)) = -p from by omega, Int.cast_neg]
    have e2 : ((q.natAbs : ℚ)) = (q : ℚ) := by
      rw [natAbs_castQ, show ((q.natAbs : ℤ)) = q from by omega]
    rw [decide_eq_true hp, decide_eq_false hq0, show (true ^^ false) = true from rfl,
      if_pos rfl, Int.cast_neg, neg_div, key, e1, e2]
    field_simp
  · have e1 : ((p.natAbs : ℚ)) = (p : ℚ) := by
      rw [natAbs_castQ, show ((p.natAbs : ℤ)) = p from by omega]
    have e2 : ((q.natAbs : ℚ)) = -(q : ℚ) := by
      rw [natAbs_castQ, show ((q.natAbs : ℤ)) = -q from by omega, Int.cast_neg]
    rw [decide_eq_false hp, decide_eq_true hq0, show (false ^^ true) = true from rfl,
      if_pos rfl, Int.cast_neg, neg_div, key, e1, e2]
    field_simp
  · have e1 : ((p.natAbs : ℚ)) = (p : ℚ) := by
      rw [natAbs_castQ, show ((p.natAbs : ℤ)) = p from by omega]
    have e2 : ((q.natAbs : ℚ)) = (q : ℚ) := by
      rw [natAbs_castQ, show ((q.natAbs : ℤ)) = q from by omega]
    rw [decide_eq_false hp, decide_eq_false hq0, show (false ^^ false) = false from rfl,
      if_neg (by simp), key, e1, e2]

/-- Two values satisfying the §3 canonical invariant and representing the same
mathematical value are field-by-field identical. -/
theorem canonical_inj {x y : Rational} (hx : Canonical x) (hy : Canonical y)
    (h : x.value = y.value) : x = y := by
  obtain ⟨hxn, hxd, hxg, hx0⟩ := hx
  obtain ⟨hyn, hyd, hyg, hy0⟩ := hy
  unfold Rational.value at h
  have hxdQ : ((x.denominator : ℚ)) ≠ 0 := by positivity
  have hydQ : ((y.denominator : ℚ)) ≠ 0 := by positivity
  rw [div_eq_div_iff hxdQ hydQ] at h
  have hz : (if x.isNegative then -x.numerator else x.numerator) * y.denominator
      = (if y.isNegative then -y.numerator else y.numerator) * x.denominator := by
    exact_mod_cast h
  by_cases hx0' : x.numerator = 0
  · have h0 : (0 : ℤ) = (if y.isNegative then -y.numerator else y.numerator) * x.denominator := by
      simpa [hx0'] using hz
    have hyz : y.numerator = 0 := by
      cases hb : y.isNegative <;> rw [hb] at h0
      · rcases mul_eq_zero.mp h0.symm with h1 | h1
        · simpa using h1
        · omega
      · rcases mul_eq_zero.mp h0.symm with h1 | h1
        · simpa using h1
        · omega
    obtain ⟨hd1, hs1⟩ := hx0 hx0'
    obtain ⟨hd2, hs2⟩ := hy0 hyz
    ext
    · rw [hx0', hyz]
    · rw [hd1, hd2]
    · rw [hs1, hs2]
  · have hy0' : y.numerator ≠ 0 := by
      intro hyz
      rw [hyz] at hz
      have h0 : (if x.isNegative then -x.numerator else x.numerator) * y.denominator = 0 := by
        simpa using hz
      rcases mul_eq_zero.mp h0 with h1 | h1
      · cases hb : x.isNegative <;> rw [hb] at h1 <;> simp at h1 <;> omega
      · omega
    have hxp : 0 < x.numerator := by omega
    have hyp : 0 < y.numerator := by omega
    have hcop_x : IsCoprime x.numerator x.denominator := Int.gcd_eq_one_iff_coprime.mp hxg
    have hcop_y : IsCoprime y.numerator y.denominator := Int.gcd_eq_one_iff_coprime.mp hyg
    have hflag_mag : x.isNegative = y.isNegative ∧
        x.numerator * y.denominator = y.numerator * x.denominator := by
      cases hbx : x.isNegative <;> cases hby : y.isNegative <;> rw [hbx, hby] at hz
      · refine ⟨rfl, ?_⟩
        simpa using hz
      · exfalso
        rw [if_neg (by simp), if_pos rfl] at hz
        nlinarith [mul_pos hxp hyd, mul_pos hyp hxd]
      · exfalso
        rw [if_pos rfl, if_neg (by simp)] at hz
        nlinarith [mul_pos hxp hyd, mul_pos hyp hxd]
      · rw [if_pos rfl, if_pos rfl] at hz
        exact ⟨rfl, by linarith⟩
    obtain ⟨hflag, hmag⟩ := hflag_mag
    have hdvd1 : x.numerator ∣ y.numerator := by
      have h1 : x.numerator ∣ y.numerator * x.denominator := hmag ▸ Dvd.intro _ rfl
      exact hcop_x.dvd_of_dvd_mul_right h1
    have hdvd2 : y.numerator ∣ x.numerator := by
      have h1 : y.numerator ∣ x.numerator * y.denominator := hmag ▸ Dvd.intro _ rfl
      exact hcop_y.dvd_of_dvd_mul_right h1
    have hnum : x.numerator = y.numerator := Int.dvd_antisymm (by omega) (by omega) hdvd1 hdvd2
    have hden : x.denominator = y.denominator := by
      rw [hnum] at hmag
      have hy2 : y.numerator ≠ 0 := by omega
      exact (mul_left_cancel₀ hy2 hmag).symm
    ext
    · exact hnum
    · exact hden
    · rw [hflag]

theorem canonical_good {r : Rational} (h : Canonical r) : Good r :=
  ⟨h.1, h.2.1⟩

/-- The unsigned magnitude `numerator / denominator` of a triple, as a `ℚ`. -/
def Rational.magnitude (r : Rational) : ℚ :=
  (r.numerator : ℚ) / (r.denominator : ℚ)

theorem value_of_flag_false {r : Rational} (h : r.isNegative = false) :
    r.value = r.magnitude := by
  unfold Rational.value Rational.magnitude
  rw [h]
  simp

theorem negate_good {r : Rational} (h : Good r) : Good r.negate := by
  have hd : r.denominator ≠ 0 := by have := h.2; omega
  unfold Rational.negate
  split <;> exact construct_good _ _ hd

theorem negate_flag_false {r : Rational} (h : Good r) (hneg : r.isNegative = true) :
    r.negate.isNegative = false := by
  unfold Rational.negate
  rw [if_pos hneg]
  exact construct_isNegative_of_nonneg h.1 (le_of_lt h.2)

theorem negate_value {r : Rational} (hd : r.denominator ≠ 0) : r.negate.value = -r.value := by
  unfold Rational.negate
  cases hf : r.isNegative
  · rw [if_neg (by simp), construct_value _ _ hd]
    simp only [Rational.value, hf, Bool.false_eq_true, if_false, ite_false]
    push_cast
    ring
  · rw [if_pos rfl, construct_value _ _ hd]
    simp only [Rational.value, hf, if_true, ite_true]
    push_cast
    ring

theorem negate_shape {r : Rational} (h : 0 < r.denominator) :
    ∃ p q : ℤ, 0 < q ∧ r.negate = Rational.construct p q := by
  unfold Rational.negate
  split
  · exact ⟨r.numerator, r.denominator, h, rfl⟩
  · exact ⟨r.numerator * -1, r.denominator, h, rfl⟩

theorem _add_shape_posx {x y : Rational} (hfx : x.isNegative = false)
    (hx : Good x) (hy : Good y) :
    ∃ p q : ℤ, 0 < q ∧ x._add y = Rational.construct p q := by
  cases hfy : y.isNegative
  · exact ⟨_, _, mul_pos hx.2 hy.2, _add_of_pos_pos hfx hfy⟩
  · rw [_add_of_pos_neg hfx hfy, _subtract_of_pos _ hfx]
    exact ⟨_, _, mul_pos hx.2 (negate_good hy).2, rfl⟩

theorem _subtract_shape {x y : Rational} (hx : Good x) (hy : Good y) :
    ∃ p q : ℤ, 0 < q ∧ x._subtract y = Rational.construct p q := by
  cases hfx : x.isNegative
  · exact ⟨_, _, mul_pos hx.2 hy.2, _subtract_of_pos _ hfx⟩
  · rw [_subtract_of_neg _ hfx]
    obtain ⟨p, q, hq, heq⟩ := _add_shape_posx (negate_flag_false hx hfx) (negate_good hx) hy
    rw [heq]
    exact negate_shape (construct_den_pos p q (by omega))

theorem _add_shape {x y : Rational} (hx : Good x) (hy : Good y) :
    ∃ p q : ℤ, 0 < q ∧ x._add y = Rational.construct p q := by
  cases hfx : x.isNegative
  · exact _add_shape_posx hfx hx hy
  · rw [_add_of_neg _ hfx]
    exact _subtract_shape hy (negate_good hx)

theorem construct_canonical_pos (p q : ℤ) (hq : 0 < q) : Canonical (Rational.construct p q) :=
  construct_canonical p q (by omega) (fun h => absurd h (by omega))

theorem _add_canonical {x y : Rational} (hx : Good x) (hy : Good y) :
    Canonical (x._add y) := by
  obtain ⟨p, q, hq, heq⟩ := _add_shape hx hy
  rw [heq]
  exact construct_canonical_pos p q hq

theorem _subtract_canonical {x y : Rational} (hx : Good x) (hy : Good y) :
    Canonical (x._subtract y) := by
  obtain ⟨p, q, hq, heq⟩ := _subtract_shape hx hy
  rw [heq]
  exact construct_canonical_pos p q hq

theorem _multiply_canonical {x y : Rational} (hx : Good x) (hy : Good y) :
    Canonical (x._multiply y) :=
  construct_canonical_pos _ _ (mul_pos hx.2 hy.2)

/-! ### Value correctness of the arithmetic operators -/

theorem base_add_value {x y : Rational} (hx : Good x) (hy : Good y)
    (hfx : x.isNegative = false) (hfy : y.isNegative = false) :
    (x._add y).value = x.value + y.value := by
  rw [_add_of_pos_pos hfx hfy,
    construct_value _ _ (by have := mul_pos hx.2 hy.2; omega)]
  rw [value_of_flag_false hfx, value_of_flag_false hfy]
  unfold Rational.magnitude
  have h1 : ((x.denominator : ℚ)) ≠ 0 := by
    have := hx.2; intro hc; rw [Int.cast_eq_zero] at hc; omega
  have h2 : ((y.denominator : ℚ)) ≠ 0 := by
    have := hy.2; intro hc; rw [Int.cast_eq_zero] at hc; omega
  push_cast
  field_simp
  try ring

theorem base_sub_value {x y : Rational} (hx : Good x) (hy : Good y)
    (hfx : x.isNegative = false) (hfy : y.isNegative = false) :
    (x._subtract y).value = x.value - y.value := by
  rw [_subtract_of_pos _ hfx,
    construct_value _ _ (by have := mul_pos hx.2 hy.2; omega)]
  rw [value_of_flag_false hfx, value_of_flag_false hfy]
  unfold Rational.magnitude
  have h1 : ((x.denominator : ℚ)) ≠ 0 := by
    have := hx.2; intro hc; rw [Int.cast_eq_zero] at hc; omega
  have h2 : ((y.denominator : ℚ)) ≠ 0 := by
    have := hy.2; intro hc; rw [Int.cast_eq_zero] at hc; omega
  push_cast
  field_simp
  try ring

/-- Value correctness of `_subtract` when the second operand is positively
flagged (the only way `_add` ever reaches it; for a negatively flagged second
operand the formula is wrong — claim C2). -/
theorem _subtract_value {x y : Rational} (hx : Good x) (hy : Good y)
    (hfy : y.isNegative = false) :
    (x._subtract y).value = x.value - y.value := by
  cases hfx : x.isNegative
  · exact base_sub_value hx hy hfx hfy
  · rw [_subtract_of_neg _ hfx]
    have hgx : Good x.negate := negate_good hx
    have hffx : x.negate.isNegative = false := negate_flag_false hx hfx
    obtain ⟨p, q, hq, heq⟩ := _add_shape_posx hffx hgx hy
    have hgood : Good (x.negate._add y) := by
      rw [heq]; exact construct_good p q (by omega)
    rw [negate_value (by have := hgood.2; omega)]
    rw [base_add_value hgx hy hffx hfy, negate_value (by have := hx.2; omega)]
    ring

theorem _add_value {x y : Rational} (hx : Good x) (hy : Good y) :
    (x._add y).value = x.value + y.value := by
  cases hfx : x.isNegative
  · cases hfy : y.isNegative
    · exact base_add_value hx hy hfx hfy
    · rw [_add_of_pos_neg hfx hfy,
        _subtract_value hx (negate_good hy) (negate_flag_false hy hfy),
        negate_value (by have := hy.2; omega)]
      ring
  · rw [_add_of_neg _ hfx,
      _subtract_value hy (negate_good hx) (negate_flag_false hx hfx),
      negate_value (by have := hx.2; omega)]
    ring

theorem _multiply_flag_false {x y : Rational} (hx : Good x) (hy : Good y) :
    (x._multiply y).isNegative = false :=
  construct_isNegative_of_nonneg (mul_nonneg hx.1 hy.1)
    (mul_nonneg (le_of_lt hx.2) (le_of_lt hy.2))

theorem _multiply_value {x y : Rational} (hx : Good x) (hy : Good y) :
    (x._multiply y).value = x.magnitude * y.magnitude := by
  unfold Rational._multiply
  rw [construct_value _ _ (by have := mul_pos hx.2 hy.2; omega)]
  unfold Rational.magnitude
  push_cast
  rw [div_mul_div_comm]

theorem _multiply_magnitude {x y : Rational} (hx : Good x) (hy : Good y) :
    (x._multiply y).magnitude = x.magnitude * y.magnitude := by
  rw [← value_of_flag_false (_multiply_flag_false hx hy)]
  exact _multiply_value hx hy

theorem _add_assoc {x y z : Rational} (hx : Good x) (hy : Good y) (hz : Good z) :
    (x._add y)._add z = x._add (y._add z) := by
  have h1 : Canonical (x._add y) := _add_canonical hx hy
  have h2 : Canonical (y._add z) := _add_canonical hy hz
  apply canonical_inj (_add_canonical (canonical_good h1) hz)
    (_add_canonical hx (canonical_good h2))
  rw [_add_value (canonical_good h1) hz, _add_value hx hy,
    _add_value hx (canonical_good h2), _add_value hy hz]
  ring

theorem _multiply_assoc {x y z : Rational} (hx : Good x) (hy : Good y) (hz : Good z) :
    (x._multiply y)._multiply z = x._multiply (y._multiply z) := by
  have h1 : Canonical (x._multiply y) := _multiply_canonical hx hy
  have h2 : Canonical (y._multiply z) := _multiply_canonical hy hz
  apply canonical_inj (_multiply_canonical (canonical_good h1) hz)
    (_multiply_canonical hx (canonical_good h2))
  rw [_multiply_value (canonical_good h1) hz, _multiply_value hx (canonical_good h2),
    _multiply_magnitude hx hy, _multiply_magnitude hy hz]
  ring

/-! ### The comparator -/

theorem cmp_ifs (x y : Rational) :
    x.cmp y =
      if (if x.isNegative then (-1 : ℤ) else 1) * x.numerator * y.denominator <
          (if y.isNegative then (-1 : ℤ) else 1) * y.numerator * x.denominator then -1
      else if (if y.isNegative then (-1 : ℤ) else 1) * y.numerator * x.denominator <
          (if x.isNegative then (-1 : ℤ) else 1) * x.numerator * y.denominator then 1
      else 0 := rfl

/-- `cmp` decides the exact comparison of the two mathematical values, for
operands with positive denominators. -/
theorem cmp_spec (x y : Rational) (hx : 0 < x.denominator) (hy : 0 < y.denominator) :
    (x.cmp y = -1 ↔ x.value < y.value) ∧
    (x.cmp y = 0 ↔ x.value = y.value) ∧
    (x.cmp y = 1 ↔ y.value < x.value) := by
  have hxQ : (0 : ℚ) < (x.denominator : ℚ) := by exact_mod_cast hx
  have hyQ : (0 : ℚ) < (y.denominator : ℚ) := by exact_mod_cast hy
  have hsx : ((if x.isNegative then -x.numerator else x.numerator : ℤ)) =
      (if x.isNegative then (-1 : ℤ) else 1) * x.numerator := by
    cases x.isNegative <;> simp
  have hsy : ((if y.isNegative then -y.numerator else y.numerator : ℤ)) =
      (if y.isNegative then (-1 : ℤ) else 1) * y.numerator := by
    cases y.isNegative <;> simp
  have hlt : x.value < y.value ↔
      (if x.isNegative then (-1 : ℤ) else 1) * x.numerator * y.denominator <
      (if y.isNegative then (-1 : ℤ) else 1) * y.numerator * x.denominator := by
    unfold Rational.value
    rw [div_lt_div_iff₀ hxQ hyQ, hsx, hsy]
    constructor <;> intro h <;> exact_mod_cast h
  have hgt : y.value < x.value ↔
      (if y.isNegative then (-1 : ℤ) else 1) * y.numerator * x.denominator <
      (if x.isNegative then (-1 : ℤ) else 1) * x.numerator * y.denominator := by
    unfold Rational.value
    rw [div_lt_div_iff₀ hyQ hxQ, hsx, hsy]
    constructor <;> intro h <;> exact_mod_cast h
  have heq : x.value = y.value ↔
      (if x.isNegative then (-1 : ℤ) else 1) * x.numerator * y.denominator =
      (if y.isNegative then (-1 : ℤ) else 1) * y.numerator * x.denominator := by
    unfold Rational.value
    rw [div_eq_div_iff (ne_of_gt hxQ) (ne_of_gt hyQ), hsx, hsy]
    constructor <;> intro h <;> exact_mod_cast h
  rw [cmp_ifs]
  rcases lt_trichotomy ((if x.isNegative then (-1 : ℤ) else 1) * x.numerator * y.denominator)
      ((if y.isNegative then (-1 : ℤ) else 1) * y.numerator * x.denominator) with h | h | h
  · rw [if_pos h]
    exact ⟨iff_of_true rfl (hlt.mpr h), iff_of_false (by decide) (fun he => by
        rw [heq] at he; omega),
      iff_of_false (by decide) (fun hgt2 => by rw [hgt] at hgt2; omega)⟩
  · rw [if_neg (by omega), if_neg (by omega)]
    exact ⟨iff_of_false (by decide) (fun hl => by rw [hlt] at hl; omega),
      iff_of_true rfl (heq.mpr h),
      iff_of_false (by decide) (fun hgt2 => by rw [hgt] at hgt2; omega)⟩
  · rw [if_neg (by omega), if_pos h]
    exact ⟨iff_of_false (by decide) (fun hl => by rw [hlt] at hl; omega),
      iff_of_false (by decide) (fun he => by rw [heq] at he; omega),
      iff_of_true rfl (hgt.mpr h)⟩

theorem cmp_antisym (x y : Rational) : x.cmp y = -(y.cmp x) := by
  rw [cmp_ifs, cmp_ifs]
  rcases lt_trichotomy ((if x.isNegative then (-1 : ℤ) else 1) * x.numerator * y.denominator)
      ((if y.isNegative then (-1 : ℤ) else 1) * y.numerator * x.denominator) with h | h | h
  · rw [if_pos h, if_neg (by omega), if_pos h]
  · rw [if_neg (by omega), if_neg (by omega), if_neg (by omega), if_neg (by omega)]
    rfl
  · rw [if_neg (by omega), if_pos h, if_pos h]
    rfl

/-! ### Claim theorems: constructor and arithmetic -/

/-- C1 (code bug): `multiply` does not return the exact product with an
XOR-combined sign — `_multiply` multiplies the stored magnitudes and never
consults the sign flags, so `multiply(-1/2, 1/2)` yields the positive value
`1/4` while the exact product of the mathematical values is `-1/4`. -/
theorem c1_multiply_sign_bug :
    Rational.multiply [Rational.construct (-1) 2, Rational.construct 1 2] = ⟨1, 4, false⟩ ∧
    (Rational.multiply [Rational.construct (-1) 2, Rational.construct 1 2]).value = 1 / 4 ∧
    (Rational.construct (-1) 2).value * (Rational.construct 1 2).value = -(1 / 4) := by
  have hm : Rational.multiply [Rational.construct (-1) 2, Rational.construct 1 2]
      = ⟨1, 4, false⟩ := by decide
  refine ⟨hm, ?_, ?_⟩
  · rw [hm]
    unfold Rational.value
    norm_num
  · rw [construct_value (-1) 2 (by decide), construct_value 1 2 (by decide)]
    norm_num

/-- C2 (code bug): `subtract(x, y)` is not `value(x) - value(y)` for every
sign combination — the non-negative branch of `_subtract` ignores the sign
flag of `y`, so `subtract(1/2, -1/3)` returns `1/6` although
`1/2 - (-1/3) = 5/6`. -/
theorem c2_subtract_sign_bug :
    Rational.subtract (Rational.construct 1 2) [Rational.construct (-1) 3] = ⟨1, 6, false⟩ ∧
    (Rational.subtract (Rational.construct 1 2) [Rational.construct (-1) 3]).value = 1 / 6 ∧
    (Rational.construct 1 2).value - (Rational.construct (-1) 3).value = 5 / 6 := by
  have h1 : Rational.construct 1 2 = ⟨1, 2, false⟩ := by decide
  have h2 : Rational.construct (-1) 3 = ⟨1, 3, true⟩ := by decide
  have hmain : Rational.subtract (Rational.construct 1 2) [Rational.construct (-1) 3]
      = ⟨1, 6, false⟩ := by
    rw [Rational.subtract, h2]
    simp only [List.foldl]
    rw [_subtract_of_pos _ (by rw [h1])]
    rw [h1]
    decide
  refine ⟨hmain, ?_, ?_⟩
  · rw [hmain]
    unfold Rational.value
    norm_num
  · rw [construct_value 1 2 (by decide), construct_value (-1) 3 (by decide)]
    norm_num

/-- C3 counterexample: `Construct(0, -1)` has `isNegative = true`, refuting
the claim that `Construct(0, q)` is the canonical zero with
`isNegative = false` for every nonzero `q` (and refuting that `isNegative` is
true only for strictly negative values). -/
theorem c3_negative_zero_counterexample :
    Rational.construct 0 (-1) = ⟨0, 1, true⟩ ∧
    (Rational.construct 0 (-1)).value = 0 := by
  refine ⟨by decide, ?_⟩
  rw [construct_value 0 (-1) (by decide)]
  norm_num

/-- C3 (amended): `Construct(0, q)` normalizes the magnitudes to the zero pair
`(0, 1)` for every nonzero `q`, but the flag is `false` only for `q > 0`; for
`q < 0` the result is the negatively flagged zero `(0, 1, true)`, so the zero
representation is not unique and `isNegative` can be true on a zero value. -/
theorem c3_canonical_zero_amended (q : ℤ) :
    (0 < q → Rational.construct 0 q = ⟨0, 1, false⟩) ∧
    (q < 0 → Rational.construct 0 q = ⟨0, 1, true⟩) := by
  obtain ⟨hn, hd, hs⟩ := construct_spec 0 q
  constructor <;> intro hq <;> ext
  · rw [hn]; simp
  · rw [hd]
    simp only [Int.natAbs_zero, Nat.gcd_zero_left]
    rw [Nat.div_self (by omega)]
    rfl
  · rw [hs]
    have h1 : ¬ ((0 : ℤ) < 0) := by omega
    have h2 : ¬ (q < 0) := by omega
    simp [h1, h2]
  · rw [hn]; simp
  · rw [hd]
    simp only [Int.natAbs_zero, Nat.gcd_zero_left]
    rw [Nat.div_self (by omega)]
    rfl
  · rw [hs]
    have h1 : ¬ ((0 : ℤ) < 0) := by omega
    simp [h1, hq]

/-- Witness for C3 (amended) at `q = 5` and `q = -5`. -/
theorem c3_canonical_zero_amended_witness :
    Rational.construct 0 5 = ⟨0, 1, false⟩ ∧ Rational.construct 0 (-5) = ⟨0, 1, true⟩ :=
  ⟨(c3_canonical_zero_amended 5).1 (by decide), (c3_canonical_zero_amended (-5)).2 (by decide)⟩

/-- C5: for every `p` and nonzero `q`, `Construct(p, q)` has a positive
denominator, a non-negative numerator and coprime magnitudes; the Euclidean
gcd loop terminates on these inputs and computes the mathematical gcd (the
last conjunct: the fuelled loop, whose fuel strictly bounds the strictly
decreasing remainder chain, equals `Nat.gcd`). -/
theorem c5_construct_invariants (p q : ℤ) (hq : q ≠ 0) :
    0 < (Rational.construct p q).denominator ∧
    0 ≤ (Rational.construct p q).numerator ∧
    Int.gcd (Rational.construct p q).numerator (Rational.construct p q).denominator = 1 ∧
    gcd p.natAbs q.natAbs = Nat.gcd p.natAbs q.natAbs :=
  ⟨construct_den_pos p q hq, construct_num_nonneg p q, construct_gcd_one p q hq, gcd_eq _ _⟩

/-- Witness for C5 at `p = -6`, `q = 4`. -/
theorem c5_construct_invariants_witness :
    0 < (Rational.construct (-6) 4).denominator ∧
    0 ≤ (Rational.construct (-6) 4).numerator ∧
    Int.gcd (Rational.construct (-6) 4).numerator (Rational.construct (-6) 4).denominator = 1 ∧
    gcd (-6 : ℤ).natAbs (4 : ℤ).natAbs = Nat.gcd (-6 : ℤ).natAbs (4 : ℤ).natAbs :=
  c5_construct_invariants (-6) 4 (by decide)

/-- C6 counterexample: the two distinct constructor-produced triples
`Construct(0, -1) = (0, 1, true)` and `Construct(0, 1) = (0, 1, false)`
compare as equal, refuting `cmp(x, y) = 0` exactly at identical triples. -/
theorem c6_cmp_counterexample :
    (Rational.construct 0 (-1)).cmp (Rational.construct 0 1) = 0 ∧
    Rational.construct 0 (-1) ≠ Rational.construct 0 1 := by
  constructor <;> decide

/-- C6 (amended): for operands with positive denominators, `cmp` returns
-1/0/1 by comparing the signed cross products and agrees exactly with the
comparison of the mathematical values; it is antisymmetric
(`cmp x y = -(cmp y x)`, unconditionally) and transitive, and identical
triples compare as 0 — but `cmp x y = 0` characterizes equal values, not
identical triples (the negatively flagged zero breaks the converse). -/
theorem c6_cmp_total_order (x y z : Rational) (hx : 0 < x.denominator)
    (hy : 0 < y.denominator) (hz : 0 < z.denominator) :
    (x.cmp y = -1 ↔ x.value < y.value) ∧
    (x.cmp y = 0 ↔ x.value = y.value) ∧
    (x.cmp y = 1 ↔ y.value < x.value) ∧
    x.cmp y = -(y.cmp x) ∧
    (x = y → x.cmp y = 0) ∧
    (x.cmp y = -1 → y.cmp z = -1 → x.cmp z = -1) := by
  obtain ⟨h1, h2, h3⟩ := cmp_spec x y hx hy
  refine ⟨h1, h2, h3, cmp_antisym x y, ?_, ?_⟩
  · intro he
    subst he
    exact h2.mpr rfl
  · intro hxy hyz
    exact ((cmp_spec x z hx hz).1).mpr
      (lt_trans (h1.mp hxy) (((cmp_spec y z hy hz).1).mp hyz))

/-- Witness for C6 (amended) at `1/2`, `1/3`, `1/6`. -/
theorem c6_cmp_total_order_witness :
    (Rational.construct 1 2).cmp (Rational.construct 1 2) = 0 ∧
    (Rational.construct 1 2).cmp (Rational.construct 1 3) = -((Rational.construct 1 3).cmp (Rational.construct 1 2)) :=
  ⟨(c6_cmp_total_order (Rational.construct 1 2) (Rational.construct 1 2)
      (Rational.construct 1 2) (by decide) (by decide) (by decide)).2.2.2.2.1 rfl,
   (c6_cmp_total_order (Rational.construct 1 2) (Rational.construct 1 3)
      (Rational.construct 1 6) (by decide) (by decide) (by decide)).2.2.2.1⟩

/-! ### Variadic operators (C7) -/

theorem add_single {x : Rational} (hx : Canonical x) : Rational.add [x] = x := by
  have hzero : Good (Rational.construct 0 1) := by decide
  have hv0 : (Rational.construct 0 1).value = 0 := by
    rw [construct_value 0 1 (by decide)]
    norm_num
  show (Rational.construct 0 1)._add x = x
  apply canonical_inj (_add_canonical hzero (canonical_good hx)) hx
  rw [_add_value hzero (canonical_good hx), hv0, zero_add]

theorem mul_single {x : Rational} (hx : Canonical x) :
    Rational.multiply [x] = ⟨x.numerator, x.denominator, false⟩ := by
  have hone : Good (Rational.construct 1 1) := by decide
  have hm1 : (Rational.construct 1 1).magnitude = 1 := by
    rw [show Rational.construct 1 1 = ⟨1, 1, false⟩ from by decide]
    unfold Rational.magnitude
    norm_num
  have habs : Canonical (⟨x.numerator, x.denominator, false⟩ : Rational) :=
    ⟨hx.1, hx.2.1, hx.2.2.1, fun h => ⟨(hx.2.2.2 h).1, rfl⟩⟩
  show (Rational.construct 1 1)._multiply x = _
  apply canonical_inj (_multiply_canonical hone (canonical_good hx)) habs
  rw [_multiply_value hone (canonical_good hx), hm1, one_mul,
    value_of_flag_false (rfl : (⟨x.numerator, x.denominator, false⟩ : Rational).isNegative = false)]
  rfl

theorem add_three {x y z : Rational} (hx : Canonical x) (hy : Canonical y) (hz : Canonical z) :
    Rational.add [x, y, z] = x._add (y._add z) := by
  have h0 : (Rational.construct 0 1)._add x = x := add_single hx
  show (((Rational.construct 0 1)._add x)._add y)._add z = x._add (y._add z)
  rw [h0, _add_assoc (canonical_good hx) (canonical_good hy) (canonical_good hz)]

theorem multiply_three {x y z : Rational} (hx : Canonical x) (hy : Canonical y)
    (hz : Canonical z) : Rational.multiply [x, y, z] = x._multiply (y._multiply z) := by
  have h0 : (Rational.construct 1 1)._multiply x = ⟨x.numerator, x.denominator, false⟩ :=
    mul_single hx
  show (((Rational.construct 1 1)._multiply x)._multiply y)._multiply z
      = x._multiply (y._multiply z)
  rw [h0]
  have h1 : (⟨x.numerator, x.denominator, false⟩ : Rational)._multiply y = x._multiply y := rfl
  rw [h1, _multiply_assoc (canonical_good hx) (canonical_good hy) (canonical_good hz)]

/-- C7 counterexample: the identity laws fail as stated — `multiply(x) ≠ x`
for the negative value `-1/2` (the sign is dropped), and `add(x) ≠ x` for the
constructor-produced negatively flagged zero `Construct(0, -1)`. -/
theorem c7_identity_counterexample :
    Rational.multiply [Rational.construct (-1) 2] ≠ Rational.construct (-1) 2 ∧
    Rational.add [Rational.construct 0 (-1)] ≠ Rational.construct 0 (-1) := by
  refine ⟨by decide, ?_⟩
  have h1 : Rational.construct 0 (-1) = ⟨0, 1, true⟩ := by decide
  have h2 : (⟨0, 1, true⟩ : Rational).negate = ⟨0, 1, false⟩ := by decide
  have hmain : Rational.add [Rational.construct 0 (-1)] = ⟨0, 1, false⟩ := by
    show (Rational.construct 0 1)._add (Rational.construct 0 (-1)) = ⟨0, 1, false⟩
    rw [h1, _add_of_pos_neg (by decide) rfl, h2,
      _subtract_of_pos _ (by decide)]
    decide
  rw [hmain, h1]
  decide

/-- C7 (amended): the variadic operators return their identity elements on an
empty argument list, and `add(x) = x` holds for every canonical `x`; but
`multiply(x)` returns the positively flagged `(|x|.num, |x|.den, false)` — it
equals `x` only when `x` is non-negative, because `_multiply` drops signs —
and `add(x) = x` fails for the negatively flagged zero.  Both folded
operations are associative on canonical values (for `multiply`, on the
magnitudes it actually computes). -/
theorem c7_variadic_amended :
    Rational.add [] = Rational.construct 0 1 ∧
    Rational.multiply [] = Rational.construct 1 1 ∧
    (∀ x : Rational, Canonical x → Rational.add [x] = x) ∧
    (∀ x : Rational, Canonical x →
      Rational.multiply [x] = ⟨x.numerator, x.denominator, false⟩) ∧
    (∀ x y z : Rational, Canonical x → Canonical y → Canonical z →
      Rational.add [x, y, z] = x._add (y._add z) ∧
      (x._add y)._add z = x._add (y._add z)) ∧
    (∀ x y z : Rational, Canonical x → Canonical y → Canonical z →
      Rational.multiply [x, y, z] = x._multiply (y._multiply z) ∧
      (x._multiply y)._multiply z = x._multiply (y._multiply z)) := by
  refine ⟨rfl, rfl, fun x hx => add_single hx, fun x hx => mul_single hx, ?_, ?_⟩
  · intro x y z hx hy hz
    exact ⟨add_three hx hy hz,
      _add_assoc (canonical_good hx) (canonical_good hy) (canonical_good hz)⟩
  · intro x y z hx hy hz
    exact ⟨multiply_three hx hy hz,
      _multiply_assoc (canonical_good hx) (canonical_good hy) (canonical_good hz)⟩

/-- Witness for C7 (amended) at `-3/4` (add identity) and `3/4`
(multiply single-argument behavior). -/
theorem c7_variadic_amended_witness :
    Rational.add [Rational.construct (-3) 4] = Rational.construct (-3) 4 ∧
    Rational.multiply [Rational.construct 3 4] =
      ⟨(Rational.construct 3 4).numerator, (Rational.construct 3 4).denominator, false⟩ :=
  ⟨c7_variadic_amended.2.2.1 (Rational.construct (-3) 4) (by decide),
   c7_variadic_amended.2.2.2.1 (Rational.construct 3 4) (by decide)⟩

/-! ### Significant-digit counting lemmas -/

theorem filter_erase_false {p : Char → Bool} {a : Char} (h : p a = false) :
    ∀ l : List Char, (l.erase a).filter p = l.filter p := by
  intro l
  induction l with
  | nil => rfl
  | cons c t ih =>
    rw [List.erase_cons]
    by_cases hc : (c == a) = true
    · rw [if_pos hc]
      have hca : c = a := beq_iff_eq.mp hc
      subst hca
      rw [List.filter_cons]
      simp [h]
    · rw [if_neg hc, List.filter_cons, List.filter_cons]
      cases hp : p c
      · simpa using ih
      · simpa using ih

theorem csd_strip (r : List Char) :
    countSignificantDigits (stripTrailingPoint r) = countSignificantDigits r := by
  unfold stripTrailingPoint
  split
  · unfold countSignificantDigits
    rw [filter_erase_false (by decide) r]
  · rfl

theorem csd_le_length (l : List Char) : countSignificantDigits l ≤ l.length := by
  unfold countSignificantDigits
  calc ((l.filter fun c => c.isDigit).dropWhile fun c => c == '0').length
      ≤ (l.filter fun c => c.isDigit).length := (List.dropWhile_sublist _).length_le
    _ ≤ l.length := List.length_filter_le _ _

theorem dropWhile_append_le (p : Char → Bool) (l₁ l₂ : List Char) :
    (List.dropWhile p (l₁ ++ l₂)).length ≤ (List.dropWhile p l₁).length + l₂.length := by
  rw [List.dropWhile_append]
  split
  · calc (List.dropWhile p l₂).length ≤ l₂.length := (List.dropWhile_sublist _).length_le
      _ ≤ (List.dropWhile p l₁).length + l₂.length := Nat.le_add_left _ _
  · simp

theorem csd_append (r s : List Char) :
    countSignificantDigits (r ++ s) ≤
      countSignificantDigits r + (s.filter fun c => c.isDigit).length := by
  unfold countSignificantDigits
  rw [List.filter_append]
  exact dropWhile_append_le _ _ _

theorem csd_append_point (r : List Char) :
    countSignificantDigits (r ++ ['.']) = countSignificantDigits r := by
  unfold countSignificantDigits
  rw [List.filter_append, show List.filter (fun c => c.isDigit) ['.'] = [] from by decide,
    List.append_nil]

theorem csd_append_digit (r : List Char) (c : Char) :
    countSignificantDigits (r ++ [c]) ≤ countSignificantDigits r + 1 := by
  calc countSignificantDigits (r ++ [c])
      ≤ countSignificantDigits r + (List.filter (fun c => c.isDigit) [c]).length :=
        csd_append r [c]
    _ ≤ countSignificantDigits r + 1 := by
        have : (List.filter (fun c => c.isDigit) [c]).length ≤ 1 := by
          rw [List.filter_cons]
          cases h : Char.isDigit c <;> simp
        omega

theorem digitChars_len_of_lt10 {q : ℕ} (h : q < 10) : (digitChars q).length = 1 := by
  unfold digitChars
  interval_cases q <;> decide

/-! ### Division-loop lemmas -/

theorem divisionLoop_zero_budget (y : ℕ) (fuel x : ℕ) (e : Bool) (r : List Char) :
    divisionLoop 0 y fuel x e r = r := by
  cases fuel
  · rw [divisionLoop]
  · rw [divisionLoop, if_pos (by omega)]

/-- The loop only ever appends to its `result` accumulator. -/
theorem divisionLoop_extends (n y : ℕ) :
    ∀ (fuel x : ℕ) (e : Bool) (r : List Char), ∃ t, divisionLoop n y fuel x e r = r ++ t := by
  intro fuel
  induction fuel with
  | zero =>
    intro x e r
    exact ⟨[], by rw [divisionLoop, List.append_nil]⟩
  | succ f ih =>
    intro x e r
    have step : ∀ (x2 : ℕ) (e2 : Bool) (d : List Char),
        ∃ t, divisionLoop n y f x2 e2 (r ++ d) = r ++ t := by
      intro x2 e2 d
      obtain ⟨t, ht⟩ := ih x2 e2 (r ++ d)
      exact ⟨d ++ t, by rw [ht, List.append_assoc]⟩
    have hpad : (if r = [] then ['0'] else r) = r ++ (if r = [] then ['0'] else []) := by
      split
      · simp [*]
      · simp
    rw [divisionLoop]
    by_cases h1 : ¬ countSignificantDigits (stripTrailingPoint r) < n
    · rw [if_pos h1]
      exact ⟨[], (List.append_nil r).symm⟩
    · rw [if_neg h1]
      by_cases h2 : x = 0
      · rw [if_pos h2]
        exact ⟨[], (List.append_nil r).symm⟩
      · rw [if_neg h2]
        by_cases h3 : x < y
        · rw [if_pos h3]
          cases e
          · rw [if_neg (by simp)]
            by_cases h4 : 10 * x < y
            · rw [if_pos h4, hpad, List.append_assoc, List.append_assoc]
              exact step _ _ _
            · rw [if_neg h4, hpad, List.append_assoc]
              exact step _ _ _
          · rw [if_pos rfl]
            by_cases h4 : 10 * x < y
            · rw [if_pos h4]
              exact step _ _ _
            · rw [if_neg h4]
              obtain ⟨t, ht⟩ := ih (10 * x) true r
              exact ⟨t, ht⟩
        · rw [if_neg h3]
          exact step _ _ _

/-- A larger significant-digit budget only extends the produced string. -/
theorem divisionLoop_budget_mono (y : ℕ) {n m : ℕ} (hnm : n ≤ m) :
    ∀ (fuel x : ℕ) (e : Bool) (r : List Char),
      divisionLoop n y fuel x e r <+: divisionLoop m y fuel x e r := by
  intro fuel
  induction fuel with
  | zero =>
    intro x e r
    rw [divisionLoop, divisionLoop]
  | succ f ih =>
    intro x e r
    by_cases h1 : countSignificantDigits (stripTrailingPoint r) < n
    · have h1m : countSignificantDigits (stripTrailingPoint r) < m := lt_of_lt_of_le h1 hnm
      rw [divisionLoop, divisionLoop,
        if_neg (show ¬ ¬ countSignificantDigits (stripTrailingPoint r) < n by omega),
        if_neg (show ¬ ¬ countSignificantDigits (stripTrailingPoint r) < m by omega)]
      by_cases h2 : x = 0
      · rw [if_pos h2, if_pos h2]
      · rw [if_neg h2, if_neg h2]
        by_cases h3 : x < y
        · rw [if_pos h3, if_pos h3]
          cases e
          · rw [if_neg (show ¬ (false = true) from by simp),
              if_neg (show ¬ (false = true) from by simp)]
            by_cases h4 : 10 * x < y
            · rw [if_pos h4, if_pos h4]
              exact ih _ _ _
            · rw [if_neg h4, if_neg h4]
              exact ih _ _ _
          · rw [if_pos rfl, if_pos rfl]
            by_cases h4 : 10 * x < y
            · rw [if_pos h4, if_pos h4]
              exact ih _ _ _
            · rw [if_neg h4, if_neg h4]
              exact ih _ _ _
        · rw [if_neg h3, if_neg h3]
          exact ih _ _ _
    · rw [divisionLoop]
      rw [if_pos (show ¬ countSignificantDigits (stripTrailingPoint r) < n from h1)]
      obtain ⟨t, ht⟩ := divisionLoop_extends m y (f + 1) x e r
      exact ⟨t, ht.symm⟩

/-- More fuel only extends the produced string. -/
theorem divisionLoop_fuel_mono (n y : ℕ) :
    ∀ (f2 f1 x : ℕ) (e : Bool) (r : List Char), f1 ≤ f2 →
      divisionLoop n y f1 x e r <+: divisionLoop n y f2 x e r := by
  intro f2
  induction f2 with
  | zero =>
    intro f1 x e r h
    have : f1 = 0 := by omega
    subst this
    exact List.prefix_refl _
  | succ f ih =>
    intro f1 x e r h
    cases f1 with
    | zero =>
      rw [divisionLoop]
      obtain ⟨t, ht⟩ := divisionLoop_extends n y (f + 1) x e r
      exact ⟨t, ht.symm⟩
    | succ f1 =>
      rw [divisionLoop, divisionLoop]
      by_cases h1 : ¬ countSignificantDigits (stripTrailingPoint r) < n
      · rw [if_pos h1, if_pos h1]
      · rw [if_neg h1, if_neg h1]
        by_cases h2 : x = 0
        · rw [if_pos h2, if_pos h2]
        · rw [if_neg h2, if_neg h2]
          by_cases h3 : x < y
          · rw [if_pos h3, if_pos h3]
            cases e
            · rw [if_neg (show ¬ (false = true) from by simp),
                if_neg (show ¬ (false = true) from by simp)]
              by_cases h4 : 10 * x < y
              · rw [if_pos h4, if_pos h4]
                exact ih _ _ _ _ (by omega)
              · rw [if_neg h4, if_neg h4]
                exact ih _ _ _ _ (by omega)
            · rw [if_pos rfl, if_pos rfl]
              by_cases h4 : 10 * x < y
              · rw [if_pos h4, if_pos h4]
                exact ih _ _ _ _ (by omega)
              · rw [if_neg h4, if_neg h4]
                exact ih _ _ _ _ (by omega)
          · rw [if_neg h3, if_neg h3]
            exact ih _ _ _ _ (by omega)

/-- Invariant: once the remainder is below `10·y` (true after the very first
division step, and initially whenever the integer part is a single digit),
every loop iteration appends at most one significant digit while the guard
still holds, so the final count stays within `max n (count so far)`. -/
theorem divisionLoop_csd_le (n y : ℕ) (hy : 0 < y) :
    ∀ (fuel x : ℕ) (e : Bool) (r : List Char), x < 10 * y →
      countSignificantDigits (divisionLoop n y fuel x e r) ≤
        max n (countSignificantDigits r) := by
  intro fuel
  induction fuel with
  | zero =>
    intro x e r hx
    rw [divisionLoop]
    exact le_max_right _ _
  | succ f ih =>
    intro x e r hx
    rw [divisionLoop]
    by_cases h1 : ¬ countSignificantDigits (stripTrailingPoint r) < n
    · rw [if_pos h1]
      exact le_max_right _ _
    · rw [if_neg h1]
      push_neg at h1
      rw [csd_strip] at h1
      by_cases h2 : x = 0
      · rw [if_pos h2]
        exact le_max_right _ _
      · rw [if_neg h2]
        by_cases h3 : x < y
        · rw [if_pos h3]
          have hpoint : countSignificantDigits ((if r = [] then ['0'] else r) ++ ['.'])
              = countSignificantDigits r := by
            rw [csd_append_point]
            split
            · rename_i hr
              rw [hr]
              decide
            · rfl
          cases e
          · rw [if_neg (show ¬ (false = true) from by simp)]
            by_cases h4 : 10 * x < y
            · rw [if_pos h4]
              have hb : countSignificantDigits
                  (((if r = [] then ['0'] else r) ++ ['.']) ++ ['0'])
                  ≤ countSignificantDigits r + 1 := by
                have := csd_append_digit ((if r = [] then ['0'] else r) ++ ['.']) '0'
                omega
              have hrec := ih (10 * x) true
                ((((if r = [] then ['0'] else r) ++ ['.'])) ++ ['0']) (by omega)
              omega
            · rw [if_neg h4]
              have hrec := ih (10 * x) true ((if r = [] then ['0'] else r) ++ ['.']) (by omega)
              omega
          · rw [if_pos rfl]
            by_cases h4 : 10 * x < y
            · rw [if_pos h4]
              have hb := csd_append_digit r '0'
              have hrec := ih (10 * x) true (r ++ ['0']) (by omega)
              omega
            · rw [if_neg h4]
              have hrec := ih (10 * x) true r (by omega)
              omega
        · rw [if_neg h3]
          have hq : x / y < 10 := by
            rw [Nat.div_lt_iff_lt_mul hy]
            omega
          have hlen : (digitChars (x / y)).length = 1 := digitChars_len_of_lt10 hq
          have hb : countSignificantDigits (r ++ digitChars (x / y))
              ≤ countSignificantDigits r + 1 := by
            have h5 := csd_append r (digitChars (x / y))
            have h6 : ((digitChars (x / y)).filter fun c => c.isDigit).length
                ≤ (digitChars (x / y)).length := List.length_filter_le _ _
            omega
          have hrec := ih (x % y) e (r ++ digitChars (x / y))
            (by have := Nat.mod_lt x hy; omega)
          omega

/-! ### Claim theorems: decimal expansion -/

/-- C4 counterexample: rendering `12/1` with a budget of 1 significant digit
emits the whole two-digit integer part `"12"`, exceeding the budget. -/
theorem c4_sig_digits_counterexample :
    (Rational.construct 12 1).toDecimalPlaces (mkRat 1 1) = .ok "12" ∧
    countSignificantDigits ("12".data) = 2 ∧
    ¬ countSignificantDigits ("12".data) ≤ 1 := by
  refine ⟨by decide, by decide, by decide⟩

/-- C4 (amended): the rendered string has at most
`max n (number of decimal digits of the integer part ⌊num/den⌋)` significant
digits: the budget `n` can be exceeded only by the very first division step,
which emits the full integer part in one chunk; once the remainder is below
`10·den`, every iteration re-checks the budget before appending at most one
more significant digit. -/
theorem c4_significant_digit_bound (r : Rational) (n : ℕ) (hd : 0 < r.denominator) :
    countSignificantDigits (r.toDecimalPlacesCore n).data ≤
      max n (Nat.toDigits 10 (r.numerator.toNat / r.denominator.toNat)).length := by
  unfold Rational.toDecimalPlacesCore
  by_cases h0 : r.numerator = 0
  · rw [if_pos h0]
    have h1 : countSignificantDigits ("0".data) = 0 := by decide
    omega
  · rw [if_neg h0]
    have hy : 0 < r.denominator.toNat := by omega
    have hsign : ∀ L : List Char,
        countSignificantDigits ((if r.isNegative then ['-'] else []) ++ L) =
          countSignificantDigits L := by
      intro L
      split
      · unfold countSignificantDigits
        rw [List.filter_append, show List.filter (fun c => c.isDigit) ['-'] = [] from by decide,
          List.nil_append]
      · rw [List.nil_append]
    show countSignificantDigits (String.mk _).data ≤ _
    rw [show ∀ l : List Char, (String.mk l).data = l from fun l => rfl]
    rw [hsign]
    by_cases hbig : r.numerator.toNat < 10 * r.denominator.toNat
    · have h5 := divisionLoop_csd_le n r.denominator.toNat hy
        (divisionFuel r.numerator.toNat r.denominator.toNat n) r.numerator.toNat false [] hbig
      have h6 : countSignificantDigits ([] : List Char) = 0 := by decide
      omega
    · have hx0 : ¬ r.numerator.toNat = 0 := by omega
      cases n with
      | zero =>
        rw [divisionLoop_zero_budget]
        have h6 : countSignificantDigits ([] : List Char) = 0 := by decide
        omega
      | succ k =>
        rw [show divisionFuel r.numerator.toNat r.denominator.toNat (k + 1)
            = ((k + 3) * (r.denominator.toNat + 2) + r.numerator.toNat + 1) + 1 from by
          unfold divisionFuel; ring]
        rw [divisionLoop]
        have hc : countSignificantDigits (stripTrailingPoint []) = 0 := by decide
        rw [if_neg (show ¬ ¬ countSignificantDigits (stripTrailingPoint []) < k + 1 by omega)]
        rw [if_neg hx0]
        rw [if_neg (show ¬ r.numerator.toNat < r.denominator.toNat by omega)]
        rw [List.nil_append]
        have hrec := divisionLoop_csd_le (k + 1) r.denominator.toNat hy
          ((k + 3) * (r.denominator.toNat + 2) + r.numerator.toNat + 1)
          (r.numerator.toNat % r.denominator.toNat) false
          (digitChars (r.numerator.toNat / r.denominator.toNat))
          (by have := Nat.mod_lt r.numerator.toNat hy; omega)
        have hlen := csd_le_length (digitChars (r.numerator.toNat / r.denominator.toNat))
        have hdg : (digitChars (r.numerator.toNat / r.denominator.toNat)).length
            = (Nat.toDigits 10 (r.numerator.toNat / r.denominator.toNat)).length := rfl
        omega

/-- Witness for C4 (amended) at `1/3`, `n = 1`. -/
theorem c4_significant_digit_bound_witness :
    countSignificantDigits ((Rational.construct 1 3).toDecimalPlacesCore 1).data ≤
      max 1 (Nat.toDigits 10
        ((Rational.construct 1 3).numerator.toNat /
          (Rational.construct 1 3).denominator.toNat)).length :=
  c4_significant_digit_bound (Rational.construct 1 3) 1 (by decide)

/-- C8: `toDecimalPlaces` raises `InvalidArgument` for a non-integer count,
`OutOfRange` for a negative integer count, and returns a string otherwise;
the checks happen before any division work, in that order, and the embedding
is a pure function (no side effects). -/
theorem c8_argument_checks (r : Rational) (n : ℚ) :
    (¬ n.isInt → r.toDecimalPlaces n = .error .invalidArgument) ∧
    (n.isInt → n < 0 → r.toDecimalPlaces n = .error .outOfRange) ∧
    (n.isInt → 0 ≤ n → ∃ s : String, r.toDecimalPlaces n = .ok s) := by
  unfold Rational.toDecimalPlaces
  refine ⟨fun h => by rw [if_pos h], fun hi hneg => ?_, fun hi hnn => ?_⟩
  · rw [if_neg (not_not_intro hi), if_pos hneg]
  · rw [if_neg (not_not_intro hi), if_neg (not_lt.mpr hnn)]
    exact ⟨_, rfl⟩

/-- Witness for C8 at `8/5` (non-integer), `-1` (negative) and `2`. -/
theorem c8_argument_checks_witness :
    (Rational.construct 5 3).toDecimalPlaces (mkRat 8 5) = .error .invalidArgument ∧
    (Rational.construct 5 3).toDecimalPlaces (mkRat (-1) 1) = .error .outOfRange ∧
    ∃ s : String, (Rational.construct 5 3).toDecimalPlaces (mkRat 2 1) = .ok s :=
  ⟨(c8_argument_checks (Rational.construct 5 3) (mkRat 8 5)).1 (by decide),
   (c8_argument_checks (Rational.construct 5 3) (mkRat (-1) 1)).2.1 (by decide) (by decide),
   (c8_argument_checks (Rational.construct 5 3) (mkRat 2 1)).2.2 (by decide) (by decide)⟩

theorem divisionFuel_mono (x y : ℕ) {n m : ℕ} (hnm : n ≤ m) :
    divisionFuel x y n ≤ divisionFuel x y m := by
  unfold divisionFuel
  have := Nat.mul_le_mul_right (y + 2) (show n + 2 ≤ m + 2 by omega)
  omega

/-- Raising the budget only extends the rendered string: the digit stream is
deterministic in `(x, y)` and the budget decides only the cut-off point. -/
theorem toDecimalPlacesCore_mono (r : Rational) {n m : ℕ} (hnm : n ≤ m) :
    (r.toDecimalPlacesCore n).data <+: (r.toDecimalPlacesCore m).data := by
  unfold Rational.toDecimalPlacesCore
  by_cases h0 : r.numerator = 0
  · rw [if_pos h0, if_pos h0]
  · rw [if_neg h0, if_neg h0]
    have key : divisionLoop n r.denominator.toNat
        (divisionFuel r.numerator.toNat r.denominator.toNat n) r.numerator.toNat false [] <+:
        divisionLoop m r.denominator.toNat
        (divisionFuel r.numerator.toNat r.denominator.toNat m) r.numerator.toNat false [] :=
      (divisionLoop_fuel_mono n r.denominator.toNat
          (divisionFuel r.numerator.toNat r.denominator.toNat m)
          (divisionFuel r.numerator.toNat r.denominator.toNat n) r.numerator.toNat false []
          (divisionFuel_mono _ _ hnm)).trans
        (divisionLoop_budget_mono r.denominator.toNat hnm
          (divisionFuel r.numerator.toNat r.denominator.toNat m) r.numerator.toNat false [])
    obtain ⟨t, ht⟩ := key
    exact ⟨t, by rw [show ∀ l : List Char, (String.mk l).data = l from fun l => rfl,
      show ∀ l : List Char, (String.mk l).data = l from fun l => rfl,
      List.append_assoc, ht]⟩

/-- C9: `toDecimalPlaces` truncates — the digit string rendered with budget
`n` is a prefix of the one rendered with any larger budget `m` (so each output
is an initial segment of the exact decimal expansion, cut at the budget
without looking at the next digit); in particular `5/3` at 2 significant
digits is `"1.6"` (not a rounded `"1.7"`), and `0/1` renders as `"0"` for
every valid budget. -/
theorem c9_truncation_monotone (r : Rational) (n m : ℕ) (hnm : n ≤ m) :
    (r.toDecimalPlacesCore n).data <+: (r.toDecimalPlacesCore m).data ∧
    (Rational.construct 5 3).toDecimalPlaces (mkRat 2 1) = .ok "1.6" ∧
    (Rational.construct 0 1).toDecimalPlaces ((n : ℕ) : ℚ) = .ok "0" := by
  refine ⟨toDecimalPlacesCore_mono r hnm, by decide, ?_⟩
  unfold Rational.toDecimalPlaces
  have hint : ((n : ℚ)).isInt = true := by
    simp [Rat.isInt, Rat.den_natCast]
  rw [if_neg (not_not_intro hint), if_neg (not_lt.mpr (by positivity : (0 : ℚ) ≤ (n : ℚ)))]
  unfold Rational.toDecimalPlacesCore
  rw [if_pos (by decide : (Rational.construct 0 1).numerator = 0)]

/-- Witness for C9 at `r = 1/3`, `n = 1`, `m = 2`. -/
theorem c9_truncation_witness :
    ((Rational.construct 1 3).toDecimalPlacesCore 1).data <+:
      ((Rational.construct 1 3).toDecimalPlacesCore 2).data ∧
    (Rational.construct 5 3).toDecimalPlaces (mkRat 2 1) = .ok "1.6" ∧
    (Rational.construct 0 1).toDecimalPlaces ((1 : ℕ) : ℚ) = .ok "0" :=
  c9_truncation_monotone (Rational.construct 1 3) 1 2 (by decide)

/-- C10: with a budget of zero significant digits and a nonzero numerator the
digit loop exits before emitting anything, so the result is the empty string
for a non-negative value and the bare sign `"-"` for a negative one. -/
theorem c10_zero_budget (r : Rational) (h : r.numerator ≠ 0) :
    r.toDecimalPlaces ((0 : ℕ) : ℚ) = .ok (if r.isNegative then "-" else "") := by
  unfold Rational.toDecimalPlaces
  have hint : (((0 : ℕ) : ℚ)).isInt = true := by
    simp [Rat.isInt, Rat.den_natCast]
  rw [if_neg (not_not_intro hint),
    if_neg (not_lt.mpr (by positivity : (0 : ℚ) ≤ ((0 : ℕ) : ℚ)))]
  rw [show (((0 : ℕ) : ℚ)).num.toNat = 0 from by simp]
  unfold Rational.toDecimalPlacesCore
  rw [if_neg h, divisionLoop_zero_budget, List.append_nil]
  cases hf : r.isNegative
  · rfl
  · rfl

/-- Witness for C10 at `-5/3` and `5/3`. -/
theorem c10_zero_budget_witness :
    (Rational.construct (-5) 3).toDecimalPlaces ((0 : ℕ) : ℚ) =
      .ok (if (Rational.construct (-5) 3).isNegative then "-" else "") ∧
    (Rational.construct 5 3).toDecimalPlaces ((0 : ℕ) : ℚ) =
      .ok (if (Rational.construct 5 3).isNegative then "-" else "") :=
  ⟨c10_zero_budget (Rational.construct (-5) 3) (by decide),
   c10_zero_budget (Rational.construct 5 3) (by decide)⟩

end D128
